import Mathlib

/-!
Verification of the grid-trading bot's core engine: grid-level generation
(`grid_strategy.py` and `grid_strategy_fixed.py`), the rebalance gate, the
risk governor (`risk_manager.py`), ATR computation (`market_analyzer.py`),
and the order-tracking / counter-order / PnL logic (`position_manager.py`).

Python floats are modelled as exact rationals (`ℚ`); calendar dates as day
ordinals (`ℕ`); exchange interactions are passed in explicitly (open-order
snapshots, order-history snapshots, fresh exchange order ids).
-/

namespace GridBot

/-! ### Grid-level generation

`GridStrategy.calculate_grid_levels` from `src/grid_strategy.py` (the variant
used by `main.py`): candidates are generated for `i in range(grid_count // 2)`,
filtered against the band, and finally the buy side is sorted descending and
the sell side ascending.  Python's `list.sort` is stable, as is
`List.insertionSort`. -/

def calculate_grid_levels (current_price : ℚ) (grid_range : ℚ × ℚ)
    (grid_count : ℕ) : List ℚ × List ℚ :=
  let lower_price := grid_range.1
  let upper_price := grid_range.2
  let grid_step := (upper_price - lower_price) / (grid_count : ℚ)
  let buy_levels := ((List.range (grid_count / 2)).map
      (fun i : ℕ => current_price - grid_step * ((i : ℚ) + 1))).filter
      (fun p => lower_price ≤ p)
  let sell_levels := ((List.range (grid_count / 2)).map
      (fun i : ℕ => current_price + grid_step * ((i : ℚ) + 1))).filter
      (fun p => p ≤ upper_price)
  (List.insertionSort (fun a b => b ≤ a) buy_levels,
   List.insertionSort (fun a b => a ≤ b) sell_levels)

/-- `GridStrategy.calculate_grid_levels` from `src/grid_strategy_fixed.py`:
same candidate generation and band filter, but two separate loops and no
final sort. -/
def calculate_grid_levels_fixed (current_price : ℚ) (grid_range : ℚ × ℚ)
    (grid_count : ℕ) : List ℚ × List ℚ :=
  let lower_price := grid_range.1
  let upper_price := grid_range.2
  let grid_step := (upper_price - lower_price) / (grid_count : ℚ)
  let buy_levels := ((List.range (grid_count / 2)).map
      (fun i : ℕ => current_price - grid_step * ((i : ℚ) + 1))).filter
      (fun p => lower_price ≤ p)
  let sell_levels := ((List.range (grid_count / 2)).map
      (fun i : ℕ => current_price + grid_step * ((i : ℚ) + 1))).filter
      (fun p => p ≤ upper_price)
  (buy_levels, sell_levels)

/-- The raw buy-side candidate list (before the final sort), shared by both
variants. -/
def buy_candidates (current_price lower_price grid_step : ℚ) (grid_count : ℕ) :
    List ℚ :=
  ((List.range (grid_count / 2)).map
      (fun i : ℕ => current_price - grid_step * ((i : ℚ) + 1))).filter
    (fun p => lower_price ≤ p)

/-- The raw sell-side candidate list (before the final sort), shared by both
variants. -/
def sell_candidates (current_price upper_price grid_step : ℚ) (grid_count : ℕ) :
    List ℚ :=
  ((List.range (grid_count / 2)).map
      (fun i : ℕ => current_price + grid_step * ((i : ℚ) + 1))).filter
    (fun p => p ≤ upper_price)

theorem calculate_grid_levels_eq_sort (c l u : ℚ) (n : ℕ) :
    calculate_grid_levels c (l, u) n =
      (List.insertionSort (fun a b => b ≤ a)
          (buy_candidates c l ((u - l) / (n : ℚ)) n),
       List.insertionSort (fun a b => a ≤ b)
          (sell_candidates c u ((u - l) / (n : ℚ)) n)) := rfl

theorem calculate_grid_levels_fixed_eq (c l u : ℚ) (n : ℕ) :
    calculate_grid_levels_fixed c (l, u) n =
      (buy_candidates c l ((u - l) / (n : ℚ)) n,
       sell_candidates c u ((u - l) / (n : ℚ)) n) := rfl

theorem buy_candidates_sorted (c l s : ℚ) (hs : 0 ≤ s) (n : ℕ) :
    (buy_candidates c l s n).Sorted (fun a b => b ≤ a) := by
  unfold buy_candidates
  apply List.Pairwise.filter
  rw [List.pairwise_map]
  refine (List.pairwise_lt_range _).imp ?_
  intro i j hij
  have h1 : (i : ℚ) + 1 ≤ (j : ℚ) + 1 := by
    have : (i : ℚ) ≤ (j : ℚ) := by exact_mod_cast Nat.le_of_lt hij
    linarith
  have h2 := mul_le_mul_of_nonneg_left h1 hs
  linarith [h2]

theorem sell_candidates_sorted (c u s : ℚ) (hs : 0 ≤ s) (n : ℕ) :
    (sell_candidates c u s n).Sorted (fun a b : ℚ => a ≤ b) := by
  unfold sell_candidates
  apply List.Pairwise.filter
  rw [List.pairwise_map]
  refine (List.pairwise_lt_range _).imp ?_
  intro i j hij
  have h1 : (i : ℚ) + 1 ≤ (j : ℚ) + 1 := by
    have : (i : ℚ) ≤ (j : ℚ) := by exact_mod_cast Nat.le_of_lt hij
    linarith
  have h2 := mul_le_mul_of_nonneg_left h1 hs
  linarith [h2]

/-- With a non-inverted band the two variants coincide: the original's final
sorts are identity on the already-ordered candidate lists. -/
theorem grid_variants_eq (c l u : ℚ) (n : ℕ) (h : l ≤ u) :
    calculate_grid_levels c (l, u) n = calculate_grid_levels_fixed c (l, u) n := by
  have hs : (0 : ℚ) ≤ (u - l) / (n : ℚ) := by
    apply div_nonneg (by linarith) (by positivity)
  rw [calculate_grid_levels_eq_sort, calculate_grid_levels_fixed_eq]
  refine Prod.ext ?_ ?_
  · exact (buy_candidates_sorted c l _ hs n).insertionSort_eq
  · exact (sell_candidates_sorted c u _ hs n).insertionSort_eq

theorem mem_buy_candidates {c l s : ℚ} {n : ℕ} {p : ℚ} :
    p ∈ buy_candidates c l s n ↔
      l ≤ p ∧ ∃ i : ℕ, i < n / 2 ∧ p = c - s * ((i : ℚ) + 1) := by
  simp only [buy_candidates, List.mem_filter, List.mem_map, List.mem_range,
    decide_eq_true_eq]
  constructor
  · rintro ⟨⟨i, hi, rfl⟩, h2⟩
    exact ⟨h2, i, hi, rfl⟩
  · rintro ⟨h2, i, hi, rfl⟩
    exact ⟨⟨i, hi, rfl⟩, h2⟩

theorem mem_sell_candidates {c u s : ℚ} {n : ℕ} {p : ℚ} :
    p ∈ sell_candidates c u s n ↔
      p ≤ u ∧ ∃ i : ℕ, i < n / 2 ∧ p = c + s * ((i : ℚ) + 1) := by
  simp only [sell_candidates, List.mem_filter, List.mem_map, List.mem_range,
    decide_eq_true_eq]
  constructor
  · rintro ⟨⟨i, hi, rfl⟩, h2⟩
    exact ⟨h2, i, hi, rfl⟩
  · rintro ⟨h2, i, hi, rfl⟩
    exact ⟨⟨i, hi, rfl⟩, h2⟩

theorem mem_grid_buy {c l u : ℚ} {n : ℕ} {p : ℚ} :
    p ∈ (calculate_grid_levels c (l, u) n).1 ↔
      p ∈ buy_candidates c l ((u - l) / (n : ℚ)) n := by
  rw [calculate_grid_levels_eq_sort]
  exact (List.perm_insertionSort _ _).mem_iff

theorem mem_grid_sell {c l u : ℚ} {n : ℕ} {p : ℚ} :
    p ∈ (calculate_grid_levels c (l, u) n).2 ↔
      p ∈ sell_candidates c u ((u - l) / (n : ℚ)) n := by
  rw [calculate_grid_levels_eq_sort]
  exact (List.perm_insertionSort _ _).mem_iff

theorem buy_candidates_length (c l s : ℚ) (n : ℕ) :
    (buy_candidates c l s n).length ≤ n / 2 := by
  calc (buy_candidates c l s n).length
      ≤ ((List.range (n / 2)).map
          (fun i : ℕ => c - s * ((i : ℚ) + 1))).length := List.length_filter_le _ _
    _ = n / 2 := by rw [List.length_map, List.length_range]

theorem sell_candidates_length (c u s : ℚ) (n : ℕ) :
    (sell_candidates c u s n).length ≤ n / 2 := by
  calc (sell_candidates c u s n).length
      ≤ ((List.range (n / 2)).map
          (fun i : ℕ => c + s * ((i : ℚ) + 1))).length := List.length_filter_le _ _
    _ = n / 2 := by rw [List.length_map, List.length_range]

/-- C4: grid-level generation invariant.  For every valid input
(`lower < current_price < upper`, `count > 0`), `calculate_grid_levels`
returns buy levels strictly below `current_price` and sell levels strictly
above it; every returned level is an exact ladder candidate
`current_price ∓ step·(i+1)` lying inside the band (never clamped or
substituted), every in-band candidate is kept, each side has at most
`count / 2` (integer division) entries, and the two sides together have at
most `count` entries. -/
theorem calculate_grid_levels_invariant_C4 (c l u : ℚ) (n : ℕ)
    (hl : l < c) (hu : c < u) (hn : 0 < n) :
    (∀ p ∈ (calculate_grid_levels c (l, u) n).1,
        p < c ∧ l ≤ p ∧
          ∃ i : ℕ, i < n / 2 ∧ p = c - (u - l) / (n : ℚ) * ((i : ℚ) + 1)) ∧
    (∀ i : ℕ, i < n / 2 → l ≤ c - (u - l) / (n : ℚ) * ((i : ℚ) + 1) →
        (c - (u - l) / (n : ℚ) * ((i : ℚ) + 1)) ∈ (calculate_grid_levels c (l, u) n).1) ∧
    (∀ p ∈ (calculate_grid_levels c (l, u) n).2,
        c < p ∧ p ≤ u ∧
          ∃ i : ℕ, i < n / 2 ∧ p = c + (u - l) / (n : ℚ) * ((i : ℚ) + 1)) ∧
    (∀ i : ℕ, i < n / 2 → c + (u - l) / (n : ℚ) * ((i : ℚ) + 1) ≤ u →
        (c + (u - l) / (n : ℚ) * ((i : ℚ) + 1)) ∈ (calculate_grid_levels c (l, u) n).2) ∧
    (calculate_grid_levels c (l, u) n).1.length ≤ n / 2 ∧
    (calculate_grid_levels c (l, u) n).2.length ≤ n / 2 ∧
    (calculate_grid_levels c (l, u) n).1.length +
      (calculate_grid_levels c (l, u) n).2.length ≤ n := by
  have hstep : 0 < (u - l) / (n : ℚ) := by
    apply div_pos (by linarith)
    exact_mod_cast hn
  have hlen1 : (calculate_grid_levels c (l, u) n).1.length =
      (buy_candidates c l ((u - l) / (n : ℚ)) n).length := by
    rw [calculate_grid_levels_eq_sort]
    exact (List.perm_insertionSort _ _).length_eq
  have hlen2 : (calculate_grid_levels c (l, u) n).2.length =
      (sell_candidates c u ((u - l) / (n : ℚ)) n).length := by
    rw [calculate_grid_levels_eq_sort]
    exact (List.perm_insertionSort _ _).length_eq
  refine ⟨?_, ?_, ?_, ?_, ?_, ?_, ?_⟩
  · intro p hp
    rw [mem_grid_buy, mem_buy_candidates] at hp
    obtain ⟨hlp, i, hi, rfl⟩ := hp
    have hpos : 0 < (u - l) / (n : ℚ) * ((i : ℚ) + 1) := by
      apply mul_pos hstep
      positivity
    exact ⟨by linarith, hlp, i, hi, rfl⟩
  · intro i hi hband
    rw [mem_grid_buy, mem_buy_candidates]
    exact ⟨hband, i, hi, rfl⟩
  · intro p hp
    rw [mem_grid_sell, mem_sell_candidates] at hp
    obtain ⟨hpu, i, hi, rfl⟩ := hp
    have hpos : 0 < (u - l) / (n : ℚ) * ((i : ℚ) + 1) := by
      apply mul_pos hstep
      positivity
    exact ⟨by linarith, hpu, i, hi, rfl⟩
  · intro i hi hband
    rw [mem_grid_sell, mem_sell_candidates]
    exact ⟨hband, i, hi, rfl⟩
  · rw [hlen1]
    exact buy_candidates_length _ _ _ _
  · rw [hlen2]
    exact sell_candidates_length _ _ _ _
  · have h1 := buy_candidates_length c l ((u - l) / (n : ℚ)) n
    have h2 := sell_candidates_length c u ((u - l) / (n : ℚ)) n
    rw [hlen1, hlen2]
    omega

theorem calculate_grid_levels_invariant_C4_witness :
    (50 : ℚ) < 100 ∧ (100 : ℚ) < 150 ∧ 0 < 4 ∧
      ((calculate_grid_levels 100 (50, 150) 4).1.length +
        (calculate_grid_levels 100 (50, 150) 4).2.length ≤ 4) :=
  ⟨by norm_num, by norm_num, by norm_num,
    (calculate_grid_levels_invariant_C4 100 50 150 4 (by norm_num) (by norm_num)
      (by norm_num)).2.2.2.2.2.2⟩

/-- C9 (amended): the two `calculate_grid_levels` variants return identical
buy- and sell-level lists for every input whose band is not inverted
(`lower ≤ upper`); on an inverted band the original variant's final sort can
reorder the buy levels while the fixed variant keeps generation order. -/
theorem grid_variants_agree_C9 (c l u : ℚ) (n : ℕ) (h : l ≤ u) :
    calculate_grid_levels c (l, u) n = calculate_grid_levels_fixed c (l, u) n :=
  grid_variants_eq c l u n h

theorem grid_variants_agree_C9_witness :
    (0 : ℚ) ≤ 1 ∧
      calculate_grid_levels 5 (0, 1) 2 = calculate_grid_levels_fixed 5 (0, 1) 2 :=
  ⟨by norm_num, grid_variants_agree_C9 5 0 1 2 (by norm_num)⟩

/-- C9 counterexample: on the inverted band `(100, 0)` with
`current_price = 200` and `count = 4` the original variant returns buy levels
`[250, 225]` (sorted descending) while the fixed variant returns
`[225, 250]` (generation order), so the variants are not equivalent for
every input. -/
theorem grid_variants_counterexample_C9 :
    calculate_grid_levels 200 (100, 0) 4 ≠ calculate_grid_levels_fixed 200 (100, 0) 4 := by
  have h1 : calculate_grid_levels 200 (100, 0) 4 = ([250, 225], []) := by
    simp [calculate_grid_levels, List.range_succ, List.insertionSort,
      List.orderedInsert]
    norm_num
  have h2 : calculate_grid_levels_fixed 200 (100, 0) 4 = ([225, 250], []) := by
    simp [calculate_grid_levels_fixed, List.range_succ]
    norm_num
  rw [h1, h2]
  intro h
  have := congrArg (fun q : List ℚ × List ℚ => q.1.headI) h
  norm_num at this

/-! ### Rebalance gate

`GridStrategy.should_update_grid` from `src/grid_strategy.py`: a time floor
(`grid_update_interval`) followed by a band-breach test against the band
expanded by ten percent of the band width on each side. -/

structure GridState where
  grid_range : ℚ × ℚ
  last_update_time : ℚ

def should_update_grid (grid_update_interval : ℚ) (st : GridState)
    (now current_price : ℚ) : Bool :=
  if now - st.last_update_time < grid_update_interval then false
  else
    let lower := st.grid_range.1
    let upper := st.grid_range.2
    let range_buffer := (upper - lower) * (1 / 10)
    if current_price < lower - range_buffer then true
    else if upper + range_buffer < current_price then true
    else false

/-- C5: the rebalance gate returns `false` whenever the elapsed time since the
last grid build is below the configured interval, regardless of the price;
once the time floor has elapsed it returns `true` iff the price lies outside
the band expanded on each side by ten percent of the band width. -/
theorem should_update_grid_C5 (interval : ℚ) (st : GridState) (now p : ℚ) :
    (now - st.last_update_time < interval →
      should_update_grid interval st now p = false) ∧
    (interval ≤ now - st.last_update_time →
      (should_update_grid interval st now p = true ↔
        p < st.grid_range.1 - (st.grid_range.2 - st.grid_range.1) * (1 / 10) ∨
        st.grid_range.2 + (st.grid_range.2 - st.grid_range.1) * (1 / 10) < p)) := by
  unfold should_update_grid
  constructor
  · intro h
    rw [if_pos h]
  · intro h
    rw [if_neg (not_lt.mpr h)]
    dsimp only
    split_ifs with h1 h2
    · exact iff_of_true rfl (Or.inl h1)
    · exact iff_of_true rfl (Or.inr h2)
    · simp only [Bool.false_eq_true, false_iff]
      push_neg
      exact ⟨not_lt.mp h1, not_lt.mp h2⟩

theorem should_update_grid_C5_witness :
    ((5 : ℚ) - 0 < 10 ∧
      should_update_grid 10 ⟨(100, 200), 0⟩ 5 300 = false) ∧
    ((10 : ℚ) ≤ 20 - 0 ∧
      should_update_grid 10 ⟨(100, 200), 0⟩ 20 300 = true) :=
  ⟨⟨by norm_num, (should_update_grid_C5 10 ⟨(100, 200), 0⟩ 5 300).1 (by norm_num)⟩,
   ⟨by norm_num, ((should_update_grid_C5 10 ⟨(100, 200), 0⟩ 20 300).2
      (by norm_num)).mpr (by norm_num)⟩⟩

/-! ### ATR computation

`MarketAnalyzer.calculate_atr` from `src/market_analyzer.py`: per-bar true
ranges over `for i in range(1, len(klines))`, then the arithmetic mean of
the last `period` of them.  Only the candle fields the routine reads are
modelled. -/

structure Kline where
  high : ℚ
  low : ℚ
  close : ℚ
deriving DecidableEq, Repr, Inhabited

/-- Per-bar true range:
`max(high - low, |high - prev_close|, |low - prev_close|)`. -/
def true_range (prev_close high low : ℚ) : ℚ :=
  max (high - low) (max |high - prev_close| |low - prev_close|)

/-- `MarketAnalyzer.calculate_atr` on an explicit candle snapshot (oldest
first, as `get_klines` returns); `none` is the insufficient-data outcome. -/
def calculate_atr (period : ℕ) (klines : List Kline) : Option ℚ :=
  if klines.length < period + 1 then none
  else
    let true_ranges := (List.range (klines.length - 1)).map
      (fun j =>
        let k := klines.getD (j + 1) default
        let prev := klines.getD j default
        true_range prev.close k.high k.low)
    some (((true_ranges.drop (true_ranges.length - period)).sum) / (period : ℚ))

/-- C8: `calculate_atr` fails with the insufficient-data outcome on fewer
than `period + 1` candles; the oldest candle enters only through its close
(replacing it by any candle with the same close leaves the result
unchanged); and on the three-candle fixture highs `[105,107,104]`, lows
`[100,102,99]`, closes `[103,106,101]` with `period = 2` it returns exactly
`(5 + 7) / 2 = 6`. -/
theorem calculate_atr_C8 (period : ℕ) (klines : List Kline) :
    (klines.length < period + 1 → calculate_atr period klines = none) ∧
    (∀ c c' : Kline, ∀ rest : List Kline, c.close = c'.close →
      calculate_atr period (c :: rest) = calculate_atr period (c' :: rest)) ∧
    calculate_atr 2 [⟨105, 100, 103⟩, ⟨107, 102, 106⟩, ⟨104, 99, 101⟩] = some 6 := by
  refine ⟨?_, ?_, ?_⟩
  · intro hshort
    unfold calculate_atr
    rw [if_pos hshort]
  · intro c c' rest h
    unfold calculate_atr
    simp only [List.length_cons]
    by_cases hshort : rest.length + 1 < period + 1
    · rw [if_pos hshort, if_pos hshort]
    · rw [if_neg hshort, if_neg hshort]
      have hfun : (fun j : ℕ =>
          let k := (c :: rest).getD (j + 1) default
          let prev := (c :: rest).getD j default
          true_range prev.close k.high k.low) =
          (fun j : ℕ =>
          let k := (c' :: rest).getD (j + 1) default
          let prev := (c' :: rest).getD j default
          true_range prev.close k.high k.low) := by
        funext j
        cases j with
        | zero => simp [h]
        | succ m => simp
      rw [hfun]
  · norm_num [calculate_atr, true_range, List.range_succ, max_def, abs]

theorem calculate_atr_C8_witness :
    ((2 : ℕ) < 2 + 1 ∧
      calculate_atr 2 [⟨105, 100, 103⟩, ⟨107, 102, 106⟩] = none) ∧
    ((⟨105, 100, 103⟩ : Kline).close = (⟨200, 0, 103⟩ : Kline).close ∧
      calculate_atr 2 [(⟨105, 100, 103⟩ : Kline), ⟨107, 102, 106⟩, ⟨104, 99, 101⟩] =
        calculate_atr 2 [(⟨200, 0, 103⟩ : Kline), ⟨107, 102, 106⟩, ⟨104, 99, 101⟩]) :=
  ⟨⟨by norm_num,
    (calculate_atr_C8 2 [⟨105, 100, 103⟩, ⟨107, 102, 106⟩]).1 (by norm_num)⟩,
   ⟨rfl,
    (calculate_atr_C8 2 [(⟨105, 100, 103⟩ : Kline), ⟨107, 102, 106⟩, ⟨104, 99, 101⟩]).2.1
      ⟨105, 100, 103⟩ ⟨200, 0, 103⟩ [⟨107, 102, 106⟩, ⟨104, 99, 101⟩] rfl⟩⟩

/-! ### Risk manager

`RiskManager` from `src/risk_manager.py`.  Balances are rationals; dates are
day ordinals (`datetime.date` comparison becomes `<` on `ℕ`).  The stop
reason strings are modelled by the enumeration `StopReason`.
`check_drawdown` divides by `peak_balance` with no zero guard, so it is
embedded as `Option`-valued: `none` is Python's `ZeroDivisionError`. -/

inductive StopReason
  | dailyLoss
  | maxDrawdown
  | lowBalance
deriving DecidableEq, Repr

structure RiskConfig where
  daily_loss_limit : ℚ
  max_drawdown : ℚ
deriving DecidableEq, Repr

structure RiskState where
  start_balance : ℚ
  start_date : ℕ
  daily_start_balance : ℚ
  peak_balance : ℚ
  trading_stopped : Bool
  stop_reason : Option StopReason
deriving DecidableEq, Repr

/-- The guarded loss ratio used by `check_daily_loss`:
`loss / daily_start_balance if daily_start_balance > 0 else 0`. -/
def loss_percent_of (daily_start balance : ℚ) : ℚ :=
  if 0 < daily_start then (daily_start - balance) / daily_start else 0

/-- `RiskManager.check_daily_loss`: on a calendar-day rollover the daily start
balance is reset to the current balance (and the reference date advanced)
before the loss ratio is computed; breach iff
`loss_percent >= daily_loss_limit`. -/
def check_daily_loss (daily_loss_limit : ℚ) (st : RiskState) (today : ℕ)
    (current_balance : ℚ) : RiskState × Bool :=
  let st1 := if st.start_date < today then
      { st with daily_start_balance := current_balance, start_date := today }
    else st
  (st1, decide (daily_loss_limit ≤ loss_percent_of st1.daily_start_balance current_balance))

/-- `RiskManager.check_drawdown`: the peak balance is raised to the current
balance first, then `drawdown = (peak - balance) / peak` with no zero guard;
`none` models the `ZeroDivisionError` raised when the updated peak is zero. -/
def check_drawdown (max_drawdown : ℚ) (st : RiskState) (current_balance : ℚ) :
    Option (RiskState × Bool) :=
  let st1 := if st.peak_balance < current_balance then
      { st with peak_balance := current_balance } else st
  if st1.peak_balance = 0 then none
  else
    some (st1,
      decide (max_drawdown ≤ (st1.peak_balance - current_balance) / st1.peak_balance))

/-- `RiskManager.should_stop_trading`: returns the latched stop if already
stopped; otherwise evaluates the daily-loss breach, then the drawdown breach,
then the 50-percent absolute floor, latching the first one that fires. -/
def should_stop_trading (cfg : RiskConfig) (st : RiskState) (today : ℕ)
    (current_balance : ℚ) : Option (RiskState × Bool × Option StopReason) :=
  if st.trading_stopped then some (st, true, st.stop_reason)
  else
    let r1 := check_daily_loss cfg.daily_loss_limit st today current_balance
    if r1.2 then
      some ({ r1.1 with trading_stopped := true, stop_reason := some .dailyLoss },
        true, some .dailyLoss)
    else
      match check_drawdown cfg.max_drawdown r1.1 current_balance with
      | none => none
      | some (st2, dd) =>
        if dd then
          some ({ st2 with trading_stopped := true, stop_reason := some .maxDrawdown },
            true, some .maxDrawdown)
        else if current_balance < st2.start_balance * (1 / 2) then
          some ({ st2 with trading_stopped := true, stop_reason := some .lowBalance },
            true, some .lowBalance)
        else some (st2, false, none)

/-- A sequence of `should_stop_trading` calls, threading the risk state.  A
`none` result (an unhandled `ZeroDivisionError`) aborts the sequence, as the
exception would abort the polling loop. -/
def risk_calls (cfg : RiskConfig) :
    RiskState → List (ℕ × ℚ) → RiskState × List (Bool × Option StopReason)
  | st, [] => (st, [])
  | st, (d, b) :: rest =>
    match should_stop_trading cfg st d b with
    | some (st1, stopped, r) =>
      let tail := risk_calls cfg st1 rest
      (tail.1, (stopped, r) :: tail.2)
    | none => (st, [])

theorem should_stop_of_stopped (cfg : RiskConfig) (st : RiskState) (d : ℕ) (b : ℚ)
    (h : st.trading_stopped = true) :
    should_stop_trading cfg st d b = some (st, true, st.stop_reason) := by
  unfold should_stop_trading
  rw [if_pos h]

theorem risk_calls_stopped (cfg : RiskConfig) (st : RiskState)
    (h : st.trading_stopped = true) (calls : List (ℕ × ℚ)) :
    risk_calls cfg st calls = (st, calls.map (fun _ => (true, st.stop_reason))) := by
  induction calls with
  | nil => rfl
  | cons hd tl ih =>
    obtain ⟨d, b⟩ := hd
    rw [risk_calls, should_stop_of_stopped cfg st d b h]
    simp only [List.map_cons, ih]

/-- C2: the risk stop is a one-way latch: any call that returns
`stopped = true` leaves a state from which every subsequent call — with any
balance and date whatsoever — returns `stopped = true` with the same reason
and never changes the state again; and when the stopping call started from a
non-stopped state, the reported reason is the first breach in the order
daily-loss, drawdown, absolute 50-percent floor. -/
theorem should_stop_trading_latch_C2 (cfg : RiskConfig) (st : RiskState)
    (d : ℕ) (b : ℚ) (st1 : RiskState) (r : Option StopReason)
    (h : should_stop_trading cfg st d b = some (st1, true, r)) :
    st1.trading_stopped = true ∧ st1.stop_reason = r ∧
    (∀ calls : List (ℕ × ℚ),
      risk_calls cfg st1 calls = (st1, calls.map (fun _ => (true, r)))) ∧
    (st.trading_stopped = false →
      ((check_daily_loss cfg.daily_loss_limit st d b).2 = true →
        r = some .dailyLoss) ∧
      (∀ st2 dd, (check_daily_loss cfg.daily_loss_limit st d b).2 = false →
        check_drawdown cfg.max_drawdown
            (check_daily_loss cfg.daily_loss_limit st d b).1 b = some (st2, dd) →
        (dd = true → r = some .maxDrawdown) ∧
        (dd = false →
          r = some .lowBalance ∧ b < st2.start_balance * (1 / 2)))) := by
  have main : st1.trading_stopped = true ∧ st1.stop_reason = r ∧
      (st.trading_stopped = false →
        ((check_daily_loss cfg.daily_loss_limit st d b).2 = true →
          r = some .dailyLoss) ∧
        (∀ st2 dd, (check_daily_loss cfg.daily_loss_limit st d b).2 = false →
          check_drawdown cfg.max_drawdown
              (check_daily_loss cfg.daily_loss_limit st d b).1 b = some (st2, dd) →
          (dd = true → r = some .maxDrawdown) ∧
          (dd = false →
            r = some .lowBalance ∧ b < st2.start_balance * (1 / 2)))) := by
    unfold should_stop_trading at h
    split at h
    case isTrue hstop =>
      simp only [Option.some.injEq, Prod.mk.injEq, true_and] at h
      obtain ⟨h1, h3⟩ := h
      subst h1
      refine ⟨hstop, h3, fun hfalse => ?_⟩
      rw [hstop] at hfalse
      cases hfalse
    case isFalse hstop =>
      simp only at h
      split at h
      case isTrue hdaily =>
        simp only [Option.some.injEq, Prod.mk.injEq, true_and] at h
        obtain ⟨h1, h3⟩ := h
        refine ⟨by rw [← h1], by rw [← h1, ← h3], fun _ => ⟨fun _ => h3.symm, ?_⟩⟩
        intro st2 dd hd2 _
        rw [hd2] at hdaily
        cases hdaily
      case isFalse hdaily =>
        split at h
        · exact Option.noConfusion h
        case _ st2 dd hdd =>
          split at h
          case isTrue hddb =>
            simp only [Option.some.injEq, Prod.mk.injEq, true_and] at h
            obtain ⟨h1, h3⟩ := h
            refine ⟨by rw [← h1], by rw [← h1, ← h3], fun _ => ⟨?_, ?_⟩⟩
            · intro hd
              rw [hd] at hdaily
              exact absurd rfl hdaily
            · intro st2' dd' _ hdd'
              rw [hdd] at hdd'
              simp only [Option.some.injEq, Prod.mk.injEq] at hdd'
              obtain ⟨he1, he2⟩ := hdd'
              subst he1 he2
              refine ⟨fun _ => h3.symm, fun hc => ?_⟩
              rw [hddb] at hc
              cases hc
          case isFalse hddb =>
            split at h
            case isTrue hfloor =>
              simp only [Option.some.injEq, Prod.mk.injEq, true_and] at h
              obtain ⟨h1, h3⟩ := h
              refine ⟨by rw [← h1], by rw [← h1, ← h3], fun _ => ⟨?_, ?_⟩⟩
              · intro hd
                rw [hd] at hdaily
                exact absurd rfl hdaily
              · intro st2' dd' _ hdd'
                rw [hdd] at hdd'
                simp only [Option.some.injEq, Prod.mk.injEq] at hdd'
                obtain ⟨he1, he2⟩ := hdd'
                subst he1 he2
                refine ⟨fun hc => absurd hc hddb, fun _ => ⟨h3.symm, hfloor⟩⟩
            case isFalse hfloor =>
              simp only [Option.some.injEq, Prod.mk.injEq] at h
              obtain ⟨-, h2, -⟩ := h
              cases h2
  obtain ⟨m1, m2, m3⟩ := main
  refine ⟨m1, m2, ?_, m3⟩
  intro calls
  rw [risk_calls_stopped cfg st1 m1 calls, m2]

theorem should_stop_trading_latch_C2_witness :
    should_stop_trading ⟨1/20, 3/20⟩ ⟨1000, 5, 1000, 1000, false, none⟩ 5 940
      = some (⟨1000, 5, 1000, 1000, true, some .dailyLoss⟩, true, some .dailyLoss) ∧
    risk_calls ⟨1/20, 3/20⟩ ⟨1000, 5, 1000, 1000, true, some .dailyLoss⟩ [(6, 2000)]
      = (⟨1000, 5, 1000, 1000, true, some .dailyLoss⟩, [(true, some .dailyLoss)]) := by
  have h : should_stop_trading ⟨1/20, 3/20⟩ ⟨1000, 5, 1000, 1000, false, none⟩ 5 940
      = some (⟨1000, 5, 1000, 1000, true, some .dailyLoss⟩, true, some .dailyLoss) := by
    norm_num [should_stop_trading, check_daily_loss, loss_percent_of]
  refine ⟨h, ?_⟩
  have h2 := (should_stop_trading_latch_C2 ⟨1/20, 3/20⟩
      ⟨1000, 5, 1000, 1000, false, none⟩ 5 940
      ⟨1000, 5, 1000, 1000, true, some .dailyLoss⟩ (some .dailyLoss) h).2.2.1 [(6, 2000)]
  simpa using h2

/-- C6: `check_daily_loss` resets the daily start balance (and reference
date) to the current balance on a calendar-day rollover — making the loss
ratio of that call zero — and otherwise leaves the state untouched and
reports a breach iff `(daily_start - balance)/daily_start >= limit`,
boundary inclusive; with `daily_start = 1000` and limit `5%`, balance `940`
breaches and `960` does not. -/
theorem check_daily_loss_C6 (limit : ℚ) (st : RiskState) (today : ℕ) (b : ℚ) :
    (st.start_date < today →
      (check_daily_loss limit st today b).1.daily_start_balance = b ∧
      (check_daily_loss limit st today b).1.start_date = today ∧
      loss_percent_of (check_daily_loss limit st today b).1.daily_start_balance b = 0) ∧
    (¬ st.start_date < today →
      (check_daily_loss limit st today b).1 = st ∧
      ((check_daily_loss limit st today b).2 = true ↔
        limit ≤ loss_percent_of st.daily_start_balance b)) ∧
    (0 < st.daily_start_balance →
      loss_percent_of st.daily_start_balance b =
        (st.daily_start_balance - b) / st.daily_start_balance) ∧
    (check_daily_loss (1/20) ⟨1000, 5, 1000, 1000, false, none⟩ 5 940).2 = true ∧
    (check_daily_loss (1/20) ⟨1000, 5, 1000, 1000, false, none⟩ 5 960).2 = false := by
  refine ⟨?_, ?_, ?_, ?_, ?_⟩
  · intro hroll
    unfold check_daily_loss
    rw [if_pos hroll]
    refine ⟨rfl, rfl, ?_⟩
    unfold loss_percent_of
    split_ifs with h0
    · simp
    · rfl
  · intro hroll
    unfold check_daily_loss
    rw [if_neg hroll]
    exact ⟨rfl, by simp⟩
  · intro h0
    unfold loss_percent_of
    rw [if_pos h0]
  · norm_num [check_daily_loss, loss_percent_of]
  · norm_num [check_daily_loss, loss_percent_of]

theorem check_daily_loss_C6_witness :
    ((5 : ℕ) < 6 ∧
      (check_daily_loss (1/20) ⟨1000, 5, 1000, 1000, false, none⟩ 6 800).1.daily_start_balance
        = 800) ∧
    (check_daily_loss (1/20) ⟨1000, 5, 1000, 1000, false, none⟩ 5 940).2 = true :=
  ⟨⟨by norm_num,
    ((check_daily_loss_C6 (1/20) ⟨1000, 5, 1000, 1000, false, none⟩ 6 800).1
      (by norm_num)).1⟩,
   (check_daily_loss_C6 (1/20) ⟨1000, 5, 1000, 1000, false, none⟩ 5 940).2.2.2.1⟩

/-- C10: `check_drawdown` first raises the peak to the current balance and
then divides by it with no zero guard: whenever the entry peak or the
current balance is positive the call is well-defined and leaves a positive,
non-decreasing peak (so every later call stays well-defined), while a zero
peak with a non-positive balance reaches the division-by-zero branch
(`none`); `check_daily_loss`, by contrast, guards its denominator and
yields a zero loss ratio. -/
theorem check_drawdown_totality_C10 (md : ℚ) (st : RiskState) (b : ℚ) :
    (0 < st.peak_balance ∨ 0 < b →
      ∃ st2 dd, check_drawdown md st b = some (st2, dd) ∧
        0 < st2.peak_balance ∧ st.peak_balance ≤ st2.peak_balance) ∧
    (st.peak_balance = 0 → b ≤ 0 → check_drawdown md st b = none) ∧
    (∀ d : ℚ, d ≤ 0 → loss_percent_of d b = 0) := by
  refine ⟨?_, ?_, ?_⟩
  · intro hpos
    unfold check_drawdown
    by_cases hlt : st.peak_balance < b
    · have hb : 0 < b := by
        rcases hpos with h | h
        · linarith
        · exact h
      have hne : ¬ ({ st with peak_balance := b } : RiskState).peak_balance = 0 :=
        ne_of_gt hb
      rw [if_pos hlt, if_neg hne]
      exact ⟨_, _, rfl, hb, le_of_lt hlt⟩
    · have hp : 0 < st.peak_balance := by
        rcases hpos with h | h
        · exact h
        · linarith [not_lt.mp hlt]
      rw [if_neg hlt, if_neg (ne_of_gt hp)]
      exact ⟨_, _, rfl, hp, le_refl _⟩
  · intro hzero hb
    have h1 : ¬ st.peak_balance < b := by
      rw [hzero]
      exact not_lt.mpr hb
    unfold check_drawdown
    rw [if_neg h1, if_pos hzero]
  · intro d hd
    unfold loss_percent_of
    rw [if_neg (not_lt.mpr hd)]

theorem check_drawdown_totality_C10_witness :
    ((0 : ℚ) < 1000 ∨ (0 : ℚ) < 900) ∧
    (∃ st2 dd,
      check_drawdown (3/20) ⟨1000, 5, 1000, 1000, false, none⟩ 900 = some (st2, dd) ∧
        0 < st2.peak_balance ∧ (1000 : ℚ) ≤ st2.peak_balance) ∧
    check_drawdown (3/20) ⟨0, 5, 0, 0, false, none⟩ 0 = none :=
  ⟨Or.inl (by norm_num),
   (check_drawdown_totality_C10 (3/20) ⟨1000, 5, 1000, 1000, false, none⟩ 900).1
     (Or.inl (by norm_num)),
   (check_drawdown_totality_C10 (3/20) ⟨0, 5, 0, 0, false, none⟩ 0).2.1 rfl
     (by norm_num)⟩

/-! ### Position manager

`PositionManager` from `src/position_manager.py`.  `active_orders` (a dict
keyed by order id) becomes an association list, `order_pairs`
(a `defaultdict(list)`) an association list from a filled order's id to the
ids of its counter orders.  The exchange client is modelled by explicit
snapshots (open orders, order history) and by the fresh order id the
exchange assigns to a placed counter order. -/

inductive Side
  | Buy
  | Sell
deriving DecidableEq, Repr

structure Order where
  order_id : ℕ
  side : Side
  price : ℚ
  qty : ℚ
deriving DecidableEq, Repr

inductive OrderStatus
  | Filled
  | Cancelled
  | Rejected
  | Other
deriving DecidableEq, Repr

structure PMState where
  active_orders : List (ℕ × Order)
  filled_orders : List Order
  order_pairs : List (ℕ × List ℕ)
deriving DecidableEq, Repr

/-- `self.order_pairs[pid].append(cid)` on a `defaultdict(list)`. -/
def pairs_add : List (ℕ × List ℕ) → ℕ → ℕ → List (ℕ × List ℕ)
  | [], pid, cid => [(pid, [cid])]
  | (k, v) :: rest, pid, cid =>
    if k = pid then (k, v ++ [cid]) :: rest
    else (k, v) :: pairs_add rest pid cid

/-- `PositionManager.place_counter_order`: opposite side one grid step away;
skipped (state untouched) when the counter price leaves the grid band;
otherwise the exchange assigns `newId` and the order is tracked and paired.
The returned `Option Order` is the order handed to `place_limit_order`. -/
def place_counter_order (grid_step : ℚ) (grid_range : ℚ × ℚ) (newId : ℕ)
    (st : PMState) (filled_order : Order) : PMState × Option Order :=
  let pc : ℚ × Side :=
    match filled_order.side with
    | .Buy => (filled_order.price + grid_step, .Sell)
    | .Sell => (filled_order.price - grid_step, .Buy)
  if pc.1 < grid_range.1 ∨ grid_range.2 < pc.1 then (st, none)
  else
    let order : Order := ⟨newId, pc.2, pc.1, filled_order.qty⟩
    ({ st with
        active_orders := st.active_orders ++ [(newId, order)],
        order_pairs := pairs_add st.order_pairs filled_order.order_id newId },
      some order)

/-- The scan of `PositionManager.calculate_pnl` over `order_pairs`: the first
pair whose counter-id list contains the order and whose entry leg is found in
`filled_orders` yields the fee-adjusted PnL; entries whose entry leg cannot
be found fall through to the remaining pairs; no match yields `0.0`. -/
def find_pnl (maker_fee : ℚ) (filled : List Order) (order : Order) :
    List (ℕ × List ℕ) → ℚ
  | [] => 0
  | (pid, cids) :: rest =>
    if order.order_id ∈ cids then
      match filled.find? (fun f => f.order_id == pid) with
      | some original =>
        match original.side with
        | .Buy =>
          (order.price - original.price) * order.qty -
            (original.price + order.price) * order.qty * maker_fee
        | .Sell =>
          (original.price - order.price) * order.qty -
            (order.price + original.price) * order.qty * maker_fee
      | none => find_pnl maker_fee filled order rest
    else find_pnl maker_fee filled order rest

/-- `PositionManager.calculate_pnl`. -/
def calculate_pnl (maker_fee : ℚ) (st : PMState) (order : Order) : ℚ :=
  find_pnl maker_fee st.filled_orders order st.order_pairs

/-- `PositionManager.handle_filled_order`: places the counter order, computes
the PnL (used only for the trade record and risk statistics), and appends the
fill to `filled_orders`. -/
def handle_filled_order (maker_fee grid_step : ℚ) (grid_range : ℚ × ℚ)
    (newId : ℕ) (st : PMState) (order : Order) : PMState :=
  let st1 := (place_counter_order grid_step grid_range newId st order).1
  { st1 with filled_orders := st1.filled_orders ++ [order] }

/-- First matching status from the order-history snapshot
(`get_order_history` scan with `break` on the first hit). -/
def status_of (history : List (ℕ × OrderStatus)) (oid : ℕ) : Option OrderStatus :=
  (history.find? (fun h => h.1 == oid)).map (fun h => h.2)

/-- The loop of `PositionManager.track_orders` over the snapshot
`list(self.active_orders.items())`: an order absent from the open set is
resolved via history — `Filled` triggers `handle_filled_order` (consuming one
fresh exchange id for the counter order), anything else is dropped — and is
then deleted from `active_orders`. -/
def track_orders_loop (maker_fee grid_step : ℚ) (grid_range : ℚ × ℚ)
    (open_ids : List ℕ) (history : List (ℕ × OrderStatus)) :
    List (ℕ × Order) → PMState → ℕ → PMState × ℕ
  | [], st, nid => (st, nid)
  | (oid, info) :: rest, st, nid =>
    if oid ∈ open_ids then
      track_orders_loop maker_fee grid_step grid_range open_ids history rest st nid
    else
      let processed :=
        if status_of history oid = some .Filled then
          (handle_filled_order maker_fee grid_step grid_range nid st info, nid + 1)
        else (st, nid)
      let st2 := { processed.1 with
        active_orders := processed.1.active_orders.filter (fun e => e.1 != oid) }
      track_orders_loop maker_fee grid_step grid_range open_ids history rest st2 processed.2

/-- The adoption loop of `track_orders`: every open order not yet tracked is
added to `active_orders`. -/
def adopt_orders : List Order → PMState → PMState
  | [], st => st
  | o :: rest, st =>
    if o.order_id ∈ st.active_orders.map Prod.fst then adopt_orders rest st
    else adopt_orders rest
      { st with active_orders := st.active_orders ++ [(o.order_id, o)] }

/-- `PositionManager.track_orders` (state effects; the returned
buy/sell fill lists are reflected in `filled_orders`). -/
def track_orders (maker_fee grid_step : ℚ) (grid_range : ℚ × ℚ)
    (open_orders : List Order) (history : List (ℕ × OrderStatus))
    (st : PMState) (nid : ℕ) : PMState × ℕ :=
  let open_ids := open_orders.map (fun o => o.order_id)
  let r := track_orders_loop maker_fee grid_step grid_range open_ids history
    st.active_orders st nid
  (adopt_orders open_orders r.1, r.2)

/-- The stale orders of a snapshot that history reports as `Filled`. -/
def stale_filled (open_ids : List ℕ) (history : List (ℕ × OrderStatus))
    (entries : List (ℕ × Order)) : List Order :=
  (entries.filter (fun e =>
      decide (e.1 ∉ open_ids ∧ status_of history e.1 = some .Filled))).map
    (fun e => e.2)

theorem place_counter_filled_eq (s : ℚ) (band : ℚ × ℚ) (nid : ℕ)
    (st : PMState) (o : Order) :
    (place_counter_order s band nid st o).1.filled_orders = st.filled_orders := by
  unfold place_counter_order
  split <;> (dsimp only; split <;> rfl)

theorem handle_filled_eq (fee s : ℚ) (band : ℚ × ℚ) (nid : ℕ)
    (st : PMState) (o : Order) :
    (handle_filled_order fee s band nid st o).filled_orders =
      st.filled_orders ++ [o] := by
  unfold handle_filled_order
  dsimp only
  rw [place_counter_filled_eq]

theorem handle_active_sub (fee s : ℚ) (band : ℚ × ℚ) (nid : ℕ)
    (st : PMState) (o : Order) :
    ∀ e ∈ (handle_filled_order fee s band nid st o).active_orders,
      e ∈ st.active_orders ∨ e.1 = nid := by
  intro e he
  unfold handle_filled_order place_counter_order at he
  simp only at he
  split at he
  · exact Or.inl he
  · simp only [List.mem_append, List.mem_singleton] at he
    rcases he with h | h
    · exact Or.inl h
    · right
      rw [h]

theorem loop_active_keys (fee s : ℚ) (band : ℚ × ℚ) (open_ids : List ℕ)
    (history : List (ℕ × OrderStatus)) :
    ∀ (es : List (ℕ × Order)) (st : PMState) (nid k : ℕ),
      k < nid → k ∉ open_ids →
      (∃ e ∈ (track_orders_loop fee s band open_ids history es st nid).1.active_orders,
        e.1 = k) →
      (∃ e ∈ st.active_orders, e.1 = k) ∧ ∀ e ∈ es, e.1 ≠ k := by
  intro es
  induction es with
  | nil =>
    intro st nid k hk hop h
    exact ⟨h, by simp⟩
  | cons hd tl ih =>
    obtain ⟨oid, info⟩ := hd
    intro st nid k hk hop h
    rw [track_orders_loop] at h
    by_cases hin : oid ∈ open_ids
    · rw [if_pos hin] at h
      obtain ⟨h1, h2⟩ := ih st nid k hk hop h
      refine ⟨h1, ?_⟩
      intro e he
      rcases List.mem_cons.mp he with heq | he'
      · rw [heq]
        exact fun hc => hop (hc ▸ hin)
      · exact h2 e he'
    · rw [if_neg hin] at h
      dsimp only at h
      by_cases hstat : status_of history oid = some .Filled
      · rw [if_pos hstat] at h
        dsimp only at h
        obtain ⟨h1, h2⟩ := ih _ _ k (by omega) hop h
        obtain ⟨e, he, hek⟩ := h1
        rw [List.mem_filter] at he
        obtain ⟨he1, hne⟩ := he
        have hneq : e.1 ≠ oid := bne_iff_ne.mp hne
        rcases handle_active_sub fee s band nid st info e he1 with hmem | hnid
        · refine ⟨⟨e, hmem, hek⟩, ?_⟩
          intro e' he'
          rcases List.mem_cons.mp he' with heq' | he'
          · rw [heq']
            exact fun hc => hneq (hek.trans hc.symm)
          · exact h2 e' he'
        · rw [hek] at hnid
          omega
      · rw [if_neg hstat] at h
        dsimp only at h
        obtain ⟨h1, h2⟩ := ih _ _ k hk hop h
        obtain ⟨e, he, hek⟩ := h1
        rw [List.mem_filter] at he
        obtain ⟨he1, hne⟩ := he
        have hneq : e.1 ≠ oid := bne_iff_ne.mp hne
        refine ⟨⟨e, he1, hek⟩, ?_⟩
        intro e' he'
        rcases List.mem_cons.mp he' with heq' | he'
        · rw [heq']
          exact fun hc => hneq (hek.trans hc.symm)
        · exact h2 e' he'

theorem loop_filled_eq (fee s : ℚ) (band : ℚ × ℚ) (open_ids : List ℕ)
    (history : List (ℕ × OrderStatus)) :
    ∀ (es : List (ℕ × Order)) (st : PMState) (nid : ℕ),
      (track_orders_loop fee s band open_ids history es st nid).1.filled_orders =
        st.filled_orders ++ stale_filled open_ids history es := by
  intro es
  induction es with
  | nil =>
    intro st nid
    simp [track_orders_loop, stale_filled]
  | cons hd tl ih =>
    obtain ⟨oid, info⟩ := hd
    intro st nid
    rw [track_orders_loop]
    by_cases hin : oid ∈ open_ids
    · rw [if_pos hin, ih]
      have hdec : decide ((oid, info).1 ∉ open_ids ∧
          status_of history (oid, info).1 = some .Filled) = false := by
        simp [hin]
      unfold stale_filled
      rw [List.filter_cons, hdec]
      simp
    · rw [if_neg hin]
      dsimp only
      by_cases hstat : status_of history oid = some .Filled
      · rw [if_pos hstat]
        dsimp only
        rw [ih]
        have hfill : ({ handle_filled_order fee s band nid st info with
            active_orders := (handle_filled_order fee s band nid st info).active_orders.filter
              (fun e => e.1 != oid) } : PMState).filled_orders =
            st.filled_orders ++ [info] := handle_filled_eq fee s band nid st info
        rw [hfill]
        have hdec : decide ((oid, info).1 ∉ open_ids ∧
            status_of history (oid, info).1 = some .Filled) = true := by
          simp [hin, hstat]
        unfold stale_filled
        rw [List.filter_cons, hdec]
        simp [List.append_assoc]
      · rw [if_neg hstat]
        dsimp only
        rw [ih]
        have hdec : decide ((oid, info).1 ∉ open_ids ∧
            status_of history (oid, info).1 = some .Filled) = false := by
          simp [hin, hstat]
        unfold stale_filled
        rw [List.filter_cons, hdec]
        simp

theorem adopt_filled (os : List Order) :
    ∀ st : PMState, (adopt_orders os st).filled_orders = st.filled_orders := by
  induction os with
  | nil => intro st; rfl
  | cons o rest ih =>
    intro st
    rw [adopt_orders]
    split
    · exact ih st
    · exact ih _

theorem adopt_preserves (os : List Order) :
    ∀ (st : PMState) (e : ℕ × Order), e ∈ st.active_orders →
      e ∈ (adopt_orders os st).active_orders := by
  induction os with
  | nil => intro st e he; exact he
  | cons o rest ih =>
    intro st e he
    rw [adopt_orders]
    split
    · exact ih st e he
    · exact ih _ e (List.mem_append_left _ he)

theorem adopt_mem (os : List Order) :
    ∀ (st : PMState) (o : Order), o ∈ os →
      ∃ e ∈ (adopt_orders os st).active_orders, e.1 = o.order_id := by
  induction os with
  | nil =>
    intro st o ho
    exact absurd ho (List.not_mem_nil o)
  | cons o' rest ih =>
    intro st o ho
    rcases List.mem_cons.mp ho with heq | hmem
    · subst heq
      rw [adopt_orders]
      split
      case isTrue hpres =>
        obtain ⟨k, hk, hke⟩ := List.mem_map.mp hpres
        exact ⟨k, adopt_preserves rest st k hk, hke⟩
      case isFalse hpres =>
        refine ⟨(o.order_id, o), ?_, rfl⟩
        exact adopt_preserves rest _ _ (List.mem_append_right _ (List.mem_singleton.mpr rfl))
    · rw [adopt_orders]
      split
      · exact ih st o hmem
      · exact ih _ o hmem

theorem adopt_keys_sub (os : List Order) :
    ∀ (st : PMState) (e : ℕ × Order), e ∈ (adopt_orders os st).active_orders →
      e ∈ st.active_orders ∨ e.1 ∈ os.map (fun o => o.order_id) := by
  induction os with
  | nil => intro st e he; exact Or.inl he
  | cons o rest ih =>
    intro st e he
    rw [adopt_orders] at he
    split at he
    · rcases ih st e he with h | h
      · exact Or.inl h
      · exact Or.inr (List.mem_cons_of_mem _ h)
    · rcases ih _ e he with h | h
      · rcases List.mem_append.mp h with h' | h'
        · exact Or.inl h'
        · right
          rw [List.mem_singleton.mp h']
          exact List.mem_cons_self _ _
      · exact Or.inr (List.mem_cons_of_mem _ h)

/-- C3: one `track_orders` pass fully reconciles the tracked map against the
exchange snapshots: every previously tracked order absent from the open set
is no longer tracked when the call returns (so no order is simultaneously
active and resolved), every open order is tracked afterwards, and exactly
the stale orders whose history status is `Filled` are appended to the fill
record (Cancelled/Rejected/unknown are dropped).  The freshness hypothesis
says the exchange ids it assigns to new counter orders are new. -/
theorem track_orders_C3 (fee s : ℚ) (band : ℚ × ℚ) (open_orders : List Order)
    (history : List (ℕ × OrderStatus)) (st : PMState) (nid : ℕ)
    (hfresh : ∀ e ∈ st.active_orders, e.1 < nid) :
    (∀ k, (∃ e ∈ st.active_orders, e.1 = k) →
      k ∉ open_orders.map (fun o => o.order_id) →
      ∀ e ∈ (track_orders fee s band open_orders history st nid).1.active_orders,
        e.1 ≠ k) ∧
    (∀ o ∈ open_orders,
      ∃ e ∈ (track_orders fee s band open_orders history st nid).1.active_orders,
        e.1 = o.order_id) ∧
    (track_orders fee s band open_orders history st nid).1.filled_orders =
      st.filled_orders ++
        stale_filled (open_orders.map (fun o => o.order_id)) history
          st.active_orders := by
  unfold track_orders
  dsimp only
  refine ⟨?_, ?_, ?_⟩
  · intro k hks hko e he heq
    rcases adopt_keys_sub open_orders _ e he with hin | hkey
    · have hklt : k < nid := by
        obtain ⟨e0, he0, he0k⟩ := hks
        exact he0k ▸ hfresh e0 he0
      have hmain := loop_active_keys fee s band (open_orders.map (fun o => o.order_id))
        history st.active_orders st nid k hklt hko ⟨e, hin, heq⟩
      obtain ⟨e0, he0, he0k⟩ := hks
      exact hmain.2 e0 he0 he0k
    · rw [heq] at hkey
      exact hko hkey
  · intro o ho
    exact adopt_mem open_orders _ o ho
  · rw [adopt_filled, loop_filled_eq]

theorem track_orders_C3_witness :
    (track_orders (2/10000) 200 (49000, 50000) [] [(3, .Filled)]
        ⟨[(3, ⟨3, .Buy, 49500, 1⟩)], [], []⟩ 10).1.filled_orders =
      [] ++ stale_filled [] [(3, .Filled)] [(3, ⟨3, .Buy, 49500, 1⟩)] :=
  (track_orders_C3 (2/10000) 200 (49000, 50000) [] [(3, .Filled)]
    ⟨[(3, ⟨3, .Buy, 49500, 1⟩)], [], []⟩ 10 (by simp)).2.2

theorem place_buy_in_band (s : ℚ) (band : ℚ × ℚ) (nid : ℕ) (st : PMState)
    (F : Order) (hside : F.side = .Buy)
    (h1 : band.1 ≤ F.price + s) (h2 : F.price + s ≤ band.2) :
    place_counter_order s band nid st F =
      ({ st with
          active_orders := st.active_orders ++
            [(nid, ⟨nid, .Sell, F.price + s, F.qty⟩)],
          order_pairs := pairs_add st.order_pairs F.order_id nid },
        some ⟨nid, .Sell, F.price + s, F.qty⟩) := by
  unfold place_counter_order
  rw [hside]
  dsimp only
  rw [if_neg (by push_neg; exact ⟨h1, h2⟩)]

theorem place_sell_in_band (s : ℚ) (band : ℚ × ℚ) (nid : ℕ) (st : PMState)
    (F : Order) (hside : F.side = .Sell)
    (h1 : band.1 ≤ F.price - s) (h2 : F.price - s ≤ band.2) :
    place_counter_order s band nid st F =
      ({ st with
          active_orders := st.active_orders ++
            [(nid, ⟨nid, .Buy, F.price - s, F.qty⟩)],
          order_pairs := pairs_add st.order_pairs F.order_id nid },
        some ⟨nid, .Buy, F.price - s, F.qty⟩) := by
  unfold place_counter_order
  rw [hside]
  dsimp only
  rw [if_neg (by push_neg; exact ⟨h1, h2⟩)]

theorem place_buy_out_of_band (s : ℚ) (band : ℚ × ℚ) (nid : ℕ) (st : PMState)
    (F : Order) (hside : F.side = .Buy)
    (h : F.price + s < band.1 ∨ band.2 < F.price + s) :
    place_counter_order s band nid st F = (st, none) := by
  unfold place_counter_order
  rw [hside]
  dsimp only
  rw [if_pos h]

theorem place_sell_out_of_band (s : ℚ) (band : ℚ × ℚ) (nid : ℕ) (st : PMState)
    (F : Order) (hside : F.side = .Sell)
    (h : F.price - s < band.1 ∨ band.2 < F.price - s) :
    place_counter_order s band nid st F = (st, none) := by
  unfold place_counter_order
  rw [hside]
  dsimp only
  rw [if_pos h]

theorem handle_state_buy (fee s : ℚ) (band : ℚ × ℚ) (nid : ℕ) (st : PMState)
    (F : Order) (hside : F.side = .Buy)
    (h1 : band.1 ≤ F.price + s) (h2 : F.price + s ≤ band.2) :
    handle_filled_order fee s band nid st F =
      { active_orders := st.active_orders ++
          [(nid, ⟨nid, .Sell, F.price + s, F.qty⟩)],
        filled_orders := st.filled_orders ++ [F],
        order_pairs := pairs_add st.order_pairs F.order_id nid } := by
  unfold handle_filled_order
  rw [place_buy_in_band s band nid st F hside h1 h2]

theorem handle_state_sell (fee s : ℚ) (band : ℚ × ℚ) (nid : ℕ) (st : PMState)
    (F : Order) (hside : F.side = .Sell)
    (h1 : band.1 ≤ F.price - s) (h2 : F.price - s ≤ band.2) :
    handle_filled_order fee s band nid st F =
      { active_orders := st.active_orders ++
          [(nid, ⟨nid, .Buy, F.price - s, F.qty⟩)],
        filled_orders := st.filled_orders ++ [F],
        order_pairs := pairs_add st.order_pairs F.order_id nid } := by
  unfold handle_filled_order
  rw [place_sell_in_band s band nid st F hside h1 h2]

theorem find_pnl_zero (fee : ℚ) (filled : List Order) (o : Order) :
    ∀ pairs : List (ℕ × List ℕ), (∀ pr ∈ pairs, o.order_id ∉ pr.2) →
      find_pnl fee filled o pairs = 0 := by
  intro pairs
  induction pairs with
  | nil => intro _; rfl
  | cons hd tl ih =>
    obtain ⟨pid, cids⟩ := hd
    intro h
    rw [find_pnl, if_neg (h (pid, cids) (List.mem_cons_self _ _))]
    exact ih (fun pr hpr => h pr (List.mem_cons_of_mem _ hpr))

theorem find_append_single (F : Order) :
    ∀ l : List Order, (∀ f ∈ l, f.order_id ≠ F.order_id) →
      (l ++ [F]).find? (fun f => f.order_id == F.order_id) = some F := by
  intro l
  induction l with
  | nil =>
    intro _
    simp [List.find?]
  | cons a tl ih =>
    intro h
    rw [List.cons_append, List.find?_cons_of_neg, ih]
    · exact fun f hf => h f (List.mem_cons_of_mem _ hf)
    · simp [h a (List.mem_cons_self _ _)]

theorem find_pnl_pairs_add (fee : ℚ) (filled : List Order) (C : Order) (pid : ℕ) :
    ∀ pairs : List (ℕ × List ℕ), (∀ pr ∈ pairs, C.order_id ∉ pr.2) →
      find_pnl fee filled C (pairs_add pairs pid C.order_id) =
        match filled.find? (fun f => f.order_id == pid) with
        | some original =>
          match original.side with
          | .Buy =>
            (C.price - original.price) * C.qty -
              (original.price + C.price) * C.qty * fee
          | .Sell =>
            (original.price - C.price) * C.qty -
              (C.price + original.price) * C.qty * fee
        | none => 0 := by
  intro pairs
  induction pairs with
  | nil =>
    intro _
    rw [pairs_add, find_pnl, if_pos (List.mem_singleton.mpr rfl)]
    rcases hfind : filled.find? (fun f => f.order_id == pid) with _ | original
    · rfl
    · rfl
  | cons hd tl ih =>
    obtain ⟨k, v⟩ := hd
    intro h
    by_cases hk : k = pid
    · subst hk
      rw [pairs_add, if_pos rfl, find_pnl,
        if_pos (List.mem_append_right _ (List.mem_singleton.mpr rfl))]
      rcases hfind : filled.find? (fun f => f.order_id == k) with _ | original
      · rw [hfind]
        exact find_pnl_zero fee filled C tl
          (fun pr hpr => h pr (List.mem_cons_of_mem _ hpr))
      · rw [hfind]
    · rw [pairs_add, if_neg hk, find_pnl,
        if_neg (h (k, v) (List.mem_cons_self _ _))]
      exact ih (fun pr hpr => h pr (List.mem_cons_of_mem _ hpr))

/-- C1: round-trip pairing and PnL attribution.  A filled Buy at price `p`
produces a counter Sell at exactly `p + step` (a filled Sell a counter Buy
at `p - step`) carrying the fill's quantity, registered as the fill's paired
leg; placement is skipped with the state untouched when the counter price
leaves the grid band; when the registered counter leg later fills, the PnL
is `(sell_price - buy_price)·qty - (buy_price + sell_price)·qty·maker_fee`
whichever leg filled first; and an order that is not a registered counter
leg of any pair yields PnL `0`. -/
theorem counter_order_pnl_C1 (fee s : ℚ) (band : ℚ × ℚ) (nid : ℕ)
    (st : PMState) (F : Order) :
    (F.side = .Buy → band.1 ≤ F.price + s → F.price + s ≤ band.2 →
      place_counter_order s band nid st F =
        ({ st with
            active_orders := st.active_orders ++
              [(nid, ⟨nid, .Sell, F.price + s, F.qty⟩)],
            order_pairs := pairs_add st.order_pairs F.order_id nid },
          some ⟨nid, .Sell, F.price + s, F.qty⟩)) ∧
    (F.side = .Sell → band.1 ≤ F.price - s → F.price - s ≤ band.2 →
      place_counter_order s band nid st F =
        ({ st with
            active_orders := st.active_orders ++
              [(nid, ⟨nid, .Buy, F.price - s, F.qty⟩)],
            order_pairs := pairs_add st.order_pairs F.order_id nid },
          some ⟨nid, .Buy, F.price - s, F.qty⟩)) ∧
    (F.side = .Buy → (F.price + s < band.1 ∨ band.2 < F.price + s) →
      place_counter_order s band nid st F = (st, none)) ∧
    (F.side = .Sell → (F.price - s < band.1 ∨ band.2 < F.price - s) →
      place_counter_order s band nid st F = (st, none)) ∧
    (∀ C : Order,
      (∀ pr ∈ st.order_pairs, nid ∉ pr.2) →
      (∀ f ∈ st.filled_orders, f.order_id ≠ F.order_id) →
      C.order_id = nid →
      (F.side = .Buy → band.1 ≤ F.price + s → F.price + s ≤ band.2 →
        calculate_pnl fee (handle_filled_order fee s band nid st F) C =
          (C.price - F.price) * C.qty - (F.price + C.price) * C.qty * fee) ∧
      (F.side = .Sell → band.1 ≤ F.price - s → F.price - s ≤ band.2 →
        calculate_pnl fee (handle_filled_order fee s band nid st F) C =
          (F.price - C.price) * C.qty - (C.price + F.price) * C.qty * fee)) ∧
    (∀ o : Order, (∀ pr ∈ st.order_pairs, o.order_id ∉ pr.2) →
      calculate_pnl fee st o = 0) := by
  refine ⟨place_buy_in_band s band nid st F,
    place_sell_in_band s band nid st F,
    place_buy_out_of_band s band nid st F,
    place_sell_out_of_band s band nid st F, ?_, ?_⟩
  · intro C hfr1 hfr2 hCid
    have hfr1' : ∀ pr ∈ st.order_pairs, C.order_id ∉ pr.2 := by
      rw [hCid]
      exact hfr1
    constructor
    · intro hside h1 h2
      rw [handle_state_buy fee s band nid st F hside h1 h2]
      unfold calculate_pnl
      dsimp only
      rw [← hCid, find_pnl_pairs_add fee (st.filled_orders ++ [F]) C F.order_id
        st.order_pairs hfr1']
      rw [find_append_single F st.filled_orders hfr2]
      dsimp only
      rw [hside]
    · intro hside h1 h2
      rw [handle_state_sell fee s band nid st F hside h1 h2]
      unfold calculate_pnl
      dsimp only
      rw [← hCid, find_pnl_pairs_add fee (st.filled_orders ++ [F]) C F.order_id
        st.order_pairs hfr1']
      rw [find_append_single F st.filled_orders hfr2]
      dsimp only
      rw [hside]
  · intro o h
    exact find_pnl_zero fee st.filled_orders o st.order_pairs h

theorem counter_order_pnl_C1_witness :
    ((⟨1, .Buy, 49500, 1⟩ : Order).side = .Buy ∧
      (49000 : ℚ) ≤ 49500 + 200 ∧ (49500 : ℚ) + 200 ≤ 50000) ∧
    place_counter_order 200 (49000, 50000) 7 ⟨[], [], []⟩ ⟨1, .Buy, 49500, 1⟩ =
      (⟨[(7, ⟨7, .Sell, 49700, 1⟩)], [], [(1, [7])]⟩,
        some ⟨7, .Sell, 49700, 1⟩) ∧
    calculate_pnl (2/10000)
        (handle_filled_order (2/10000) 200 (49000, 50000) 7 ⟨[], [], []⟩
          ⟨1, .Buy, 49500, 1⟩)
        ⟨7, .Sell, 49700, 1⟩ =
      (49700 - 49500) * 1 - (49500 + 49700) * 1 * (2/10000) := by
  have hmain := counter_order_pnl_C1 (2/10000) 200 (49000, 50000) 7
    ⟨[], [], []⟩ ⟨1, .Buy, 49500, 1⟩
  refine ⟨⟨rfl, by norm_num, by norm_num⟩, ?_, ?_⟩
  · have h := hmain.1 rfl (by norm_num) (by norm_num)
    rw [h]
    norm_num [pairs_add]
  · exact (hmain.2.2.2.2.1 ⟨7, .Sell, 49700, 1⟩ (by simp) (by simp) rfl).1
      rfl (by norm_num) (by norm_num)

/-! ### Correlation tokens

`place_grid_orders` in `src/grid_strategy_fixed.py` builds each order's
`orderLinkId` as the f-string `grid_{side}_{session_id}_{timestamp}_{i}`
(session id fixed at engine start, millisecond timestamp fresh per ladder
build, `i` the enumerate index); `place_grid_orders` in
`src/grid_strategy.py` — the variant `main.py` runs — uses only
`grid_{side}_{i}`.  Tokens are modelled as character lists; decimal
rendering of a natural number is `natChars`. -/

/-- Decimal rendering of a natural number (Python's `str(n)` in an
f-string). -/
def natChars (n : ℕ) : List Char :=
  if n = 0 then ['0']
  else ((Nat.digits 10 n).map Nat.digitChar).reverse

/-- Numeric value of a decimal-digit character. -/
def charDigit (c : Char) : ℕ := c.toNat - 48

/-- Decode a digit string back to the natural number it renders. -/
def charsToNat (cs : List Char) : ℕ :=
  Nat.ofDigits 10 (cs.reverse.map charDigit)

theorem charDigit_digitChar (d : ℕ) (hd : d < 10) :
    charDigit (Nat.digitChar d) = d := by
  interval_cases d <;> rfl

theorem digitChar_ne_und (d : ℕ) (hd : d < 10) : Nat.digitChar d ≠ '_' := by
  interval_cases d <;> decide

theorem charsToNat_natChars (n : ℕ) : charsToNat (natChars n) = n := by
  unfold natChars
  split
  case isTrue h =>
    rw [h]
    rfl
  case isFalse h =>
    unfold charsToNat
    rw [List.reverse_reverse, List.map_map]
    have hcongr : ∀ d ∈ Nat.digits 10 n, (charDigit ∘ Nat.digitChar) d = id d :=
      fun d hd => charDigit_digitChar d (Nat.digits_lt_base (by norm_num) hd)
    rw [List.map_congr_left hcongr, List.map_id]
    exact Nat.ofDigits_digits 10 n

theorem natChars_inj : Function.Injective natChars := by
  intro a b h
  have h2 := congrArg charsToNat h
  rwa [charsToNat_natChars, charsToNat_natChars] at h2

theorem natChars_no_und (n : ℕ) : ∀ c ∈ natChars n, c ≠ '_' := by
  unfold natChars
  split
  · intro c hc
    rw [List.mem_singleton.mp hc]
    decide
  · intro c hc
    rw [List.mem_reverse] at hc
    obtain ⟨d, hd, rfl⟩ := List.mem_map.mp hc
    exact digitChar_ne_und d (Nat.digits_lt_base (by norm_num) hd)

/-- Split a character list at every underscore. -/
def splitUnd : List Char → List (List Char)
  | [] => [[]]
  | c :: cs =>
    if c = '_' then [] :: splitUnd cs
    else
      match splitUnd cs with
      | [] => [[c]]
      | r :: rs => (c :: r) :: rs

theorem splitUnd_append (a b : List Char) (ha : ∀ c ∈ a, c ≠ '_') :
    splitUnd (a ++ '_' :: b) = a :: splitUnd b := by
  induction a with
  | nil =>
    rw [List.nil_append, splitUnd, if_pos rfl]
  | cons c cs ih =>
    rw [List.cons_append, splitUnd,
      if_neg (ha c (List.mem_cons_self _ _)),
      ih (fun x hx => ha x (List.mem_cons_of_mem _ hx))]

theorem splitUnd_no_und (a : List Char) (ha : ∀ c ∈ a, c ≠ '_') :
    splitUnd a = [a] := by
  induction a with
  | nil => rfl
  | cons c cs ih =>
    rw [splitUnd, if_neg (ha c (List.mem_cons_self _ _)),
      ih (fun x hx => ha x (List.mem_cons_of_mem _ hx))]

/-- The side fragment of the f-string (`buy` / `sell`). -/
def sideTag : Side → List Char
  | .Buy => ['b', 'u', 'y']
  | .Sell => ['s', 'e', 'l', 'l']

theorem sideTag_no_und (side : Side) : ∀ c ∈ sideTag side, c ≠ '_' := by
  cases side <;> decide

theorem sideTag_inj : Function.Injective sideTag := by
  intro a b h
  cases a <;> cases b <;> first | rfl | (exfalso; revert h; decide)

/-- `orderLinkId` of one order in `grid_strategy_fixed.py`:
`grid_{side}_{session_id}_{timestamp}_{i}`. -/
def order_link_id_fixed (side : Side) (session timestamp idx : ℕ) : List Char :=
  ['g', 'r', 'i', 'd'] ++ '_' :: (sideTag side ++ '_' ::
    (natChars session ++ '_' :: (natChars timestamp ++ '_' :: natChars idx)))

/-- `order_link_id` of one order in `grid_strategy.py`: `grid_{side}_{i}`,
independent of session and build time. -/
def order_link_id_orig (side : Side) (idx : ℕ) : List Char :=
  ['g', 'r', 'i', 'd'] ++ '_' :: (sideTag side ++ '_' :: natChars idx)

theorem splitUnd_link_fixed (side : Side) (s t i : ℕ) :
    splitUnd (order_link_id_fixed side s t i) =
      [['g', 'r', 'i', 'd'], sideTag side, natChars s, natChars t, natChars i] := by
  unfold order_link_id_fixed
  rw [splitUnd_append _ _ (by decide),
    splitUnd_append _ _ (sideTag_no_und side),
    splitUnd_append _ _ (natChars_no_und s),
    splitUnd_append _ _ (natChars_no_und t),
    splitUnd_no_und _ (natChars_no_und i)]

theorem order_link_id_fixed_inj (sd1 : Side) (s1 t1 i1 : ℕ) (sd2 : Side)
    (s2 t2 i2 : ℕ)
    (h : order_link_id_fixed sd1 s1 t1 i1 = order_link_id_fixed sd2 s2 t2 i2) :
    sd1 = sd2 ∧ s1 = s2 ∧ t1 = t2 ∧ i1 = i2 := by
  have h2 := congrArg splitUnd h
  rw [splitUnd_link_fixed, splitUnd_link_fixed] at h2
  simp only [List.cons.injEq, and_true] at h2
  obtain ⟨-, hside, hs, ht, hi⟩ := h2
  exact ⟨sideTag_inj hside, natChars_inj hs, natChars_inj ht, natChars_inj hi⟩

/-- The correlation tokens one `place_grid_orders` build generates in
`grid_strategy_fixed.py` (buy loop then sell loop, one token per level). -/
def place_grid_orders_link_ids (session timestamp : ℕ)
    (buy_levels sell_levels : List ℚ) : List (List Char) :=
  (List.range buy_levels.length).map
      (fun i => order_link_id_fixed .Buy session timestamp i) ++
    (List.range sell_levels.length).map
      (fun i => order_link_id_fixed .Sell session timestamp i)

/-- The correlation tokens one `place_grid_orders` build generates in
`grid_strategy.py`: the session and build time are ignored. -/
def place_grid_orders_link_ids_orig (session timestamp : ℕ)
    (buy_levels sell_levels : List ℚ) : List (List Char) :=
  (List.range buy_levels.length).map (fun i => order_link_id_orig .Buy i) ++
    (List.range sell_levels.length).map (fun i => order_link_id_orig .Sell i)

theorem mem_place_grid_orders_link_ids {session timestamp : ℕ}
    {bl sl : List ℚ} {tok : List Char}
    (h : tok ∈ place_grid_orders_link_ids session timestamp bl sl) :
    ∃ side i, tok = order_link_id_fixed side session timestamp i := by
  unfold place_grid_orders_link_ids at h
  rcases List.mem_append.mp h with h' | h' <;>
    · obtain ⟨i, _, rfl⟩ := List.mem_map.mp h'
      exact ⟨_, i, rfl⟩

/-- C7 (amended, for the fixed variant): every token `place_grid_orders` of
`grid_strategy_fixed.py` generates has the form
`grid_{side}_{session_id}_{build_timestamp}_{index}`; within one build all
tokens are distinct, and a token can occur in two builds only when both
carry the same session id and the same build timestamp — so tokens are
unique across ladder builds and across restarts whenever the
(session, timestamp) pairs differ.  The original variant violates the
claim (see the counterexample). -/
theorem place_grid_orders_link_ids_C7 :
    (∀ (session timestamp : ℕ) (bl sl : List ℚ),
      (place_grid_orders_link_ids session timestamp bl sl).Nodup) ∧
    (∀ (s1 t1 s2 t2 : ℕ) (bl1 sl1 bl2 sl2 : List ℚ) (tok : List Char),
      tok ∈ place_grid_orders_link_ids s1 t1 bl1 sl1 →
      tok ∈ place_grid_orders_link_ids s2 t2 bl2 sl2 →
      s1 = s2 ∧ t1 = t2) := by
  constructor
  · intro session timestamp bl sl
    unfold place_grid_orders_link_ids
    apply List.Nodup.append
    · refine List.Nodup.map ?_ (List.nodup_range _)
      intro i j hij
      exact (order_link_id_fixed_inj _ _ _ _ _ _ _ _ hij).2.2.2
    · refine List.Nodup.map ?_ (List.nodup_range _)
      intro i j hij
      exact (order_link_id_fixed_inj _ _ _ _ _ _ _ _ hij).2.2.2
    · intro tok h1 h2
      obtain ⟨i, _, rfl⟩ := List.mem_map.mp h1
      obtain ⟨j, _, hj⟩ := List.mem_map.mp h2
      exact Side.noConfusion (order_link_id_fixed_inj _ _ _ _ _ _ _ _ hj.symm).1
  · intro s1 t1 s2 t2 bl1 sl1 bl2 sl2 tok h1 h2
    obtain ⟨side1, i1, rfl⟩ := mem_place_grid_orders_link_ids h1
    obtain ⟨side2, i2, heq⟩ := mem_place_grid_orders_link_ids h2
    obtain ⟨-, hs, ht, -⟩ := order_link_id_fixed_inj _ _ _ _ _ _ _ _ heq
    exact ⟨hs, ht⟩

theorem place_grid_orders_link_ids_C7_witness :
    (order_link_id_fixed .Buy 1 2 0 ∈ place_grid_orders_link_ids 1 2 [49500] []) ∧
    ((1 : ℕ) = 1 ∧ (2 : ℕ) = 2) := by
  have hmem : order_link_id_fixed .Buy 1 2 0 ∈
      place_grid_orders_link_ids 1 2 [49500] [] := by
    unfold place_grid_orders_link_ids
    simp [List.range_succ]
  exact ⟨hmem,
    place_grid_orders_link_ids_C7.2 1 2 1 2 [49500] [] [49500] [] _ hmem hmem⟩

theorem natChars_one : natChars 1 = ['1'] := by
  unfold natChars
  rw [if_neg one_ne_zero, Nat.digits_of_lt 10 1 one_ne_zero (by norm_num)]
  rfl

/-- C7 counterexample: in `grid_strategy.py` (the variant `main.py` runs)
two distinct placements — the index-0 buy orders of two ladder builds at
different build timestamps — carry the very same correlation token
`grid_buy_0`, and that token is not of the claimed
`{side}_{session}_{timestamp}_{index}` form. -/
theorem place_grid_orders_link_ids_orig_counterexample_C7 :
    place_grid_orders_link_ids_orig 1 1 [49500] [] =
      place_grid_orders_link_ids_orig 1 2 [49500] [] ∧
    place_grid_orders_link_ids_orig 1 1 [49500] [] ≠
      [order_link_id_fixed .Buy 1 1 0] := by
  constructor
  · rfl
  · have h1 : place_grid_orders_link_ids_orig 1 1 [49500] [] =
        [['g', 'r', 'i', 'd', '_', 'b', 'u', 'y', '_', '0']] := by
      unfold place_grid_orders_link_ids_orig order_link_id_orig sideTag
      simp [List.range_succ, natChars]
    have h2 : order_link_id_fixed .Buy 1 1 0 =
        ['g', 'r', 'i', 'd', '_', 'b', 'u', 'y', '_', '1', '_', '1', '_', '0'] := by
      unfold order_link_id_fixed sideTag
      rw [natChars_one]
      rfl
    rw [h1, h2]
    decide

end GridBot
